import Mathlib

/-
Shallow embedding of manhcuongincusar1/pointer-cache (Go).

Source files embedded:
  * src/utils.go        — DeepSize / valueSize, the cycle-safe deep memory estimator
  * src/cache.go        — the cache store: set / Set / Add / Replace / Delete /
                          DeleteExpired / Get / Flush / Size / Alloc and the
                          memory accounting (addMemUsage / deductMemUsage)
  * src/unnamed/part_001 (key_manager queue.go) — the FIFO key manager used by
                          the store: an unbounded queue (NewQueue(0)), whose
                          Add appends, Delete removes the first occurrence and
                          Peek returns the head.

Modelling conventions:
  * Go `time.Duration` / `UnixNano` instants are `Int` (nanoseconds); each
    operation takes the current instant `now` as a parameter (the Go code reads
    the clock inside the lock; we read it once per operation).
  * A 64-bit platform is modelled: PtrSize = 8, string header = 16 bytes.
  * Values stored in the cache are `GoVal`, a closed universe of the value
    shapes the estimator distinguishes that the claims need (fixed 8-byte
    scalars, strings, pointers, structs).  Pointers refer into an explicit
    heap (a list of cells, the address is the index), which gives the
    estimator' s `seen` set of visited addresses a meaning.  The reflection
    cases for slices and maps in valueSize are not exercised by any claim and
    are not part of the universe.
  * The Go map `items` is an association list with unique keys (map write =
    replace-in-place or append); the FIFO key manager is a plain list.
  * The eviction loop in `set` can loop forever (its `continue` branch changes
    no state), so `set` takes fuel for that loop and returns `none` when the
    fuel runs out; `valueSize` recurses through the heap and takes its own
    fuel.  All theorems quantify over both fuels or use ample concrete fuel.
  * Eviction callbacks (`onEvicted`) carry no store state and no claim is
    about them, so they are not modelled; `delete`'s returned pair is reduced
    to the state and the found flag.
-/

namespace PCache

/-- One Go value, as the reflection-based estimator sees it: an 8-byte scalar
(int64 and friends), a string of a given byte length, a pointer (nil or an
address into the heap) and a struct given by its field list. -/
inductive GoVal where
  | i64 : Int → GoVal
  | str : Nat → GoVal
  | ptr : Option Nat → GoVal
  | strct : List GoVal → GoVal

/-- Go `v.Type().Size()` for the shapes in the universe, on a 64-bit platform:
8 for a scalar, 16 for a string header, 8 for a pointer, and the summed field
layout for a struct (the fields used here are 8/16-byte aligned, so padding
adds nothing).  The Go function is total; the fuel only bounds the nesting
depth of struct fields, and every statement either quantifies over the fuel
or supplies ample concrete fuel. -/
def typeSize : Nat → GoVal → Nat
  | 0, _ => 0
  | _ + 1, .i64 _ => 8
  | _ + 1, .str _ => 16
  | _ + 1, .ptr _ => 8
  | _ + 1, .strct [] => 0
  | fuel + 1, .strct (f :: fs) => typeSize fuel f + typeSize fuel (.strct fs)

/-- Work item for the estimator: size a whole value, or walk a struct's field
list chasing pointer fields (utils.go valueSize, the Struct case's inner
loop). -/
inductive SzTask where
  | val : GoVal → SzTask
  | fields : List GoVal → SzTask

/-- utils.go valueSize, with the `seen` map threaded through (the Go map is
mutated in place, so marks made in one subtree are visible in its siblings).
Returns the estimated size and the final `seen` set.  Fuel bounds the
recursion depth; every recursive call consumes one unit. -/
def vsz (h : List GoVal) : Nat → SzTask → List Nat → Nat × List Nat
  | 0, _, seen => (0, seen)
  | _ + 1, .val (.i64 _), seen => (8, seen)
  | _ + 1, .val (.str n), seen => (16 + n, seen)
  | _ + 1, .val (.ptr none), seen => (8, seen)
  | fuel + 1, .val (.ptr (some a)), seen =>
    if a ∈ seen then (8, seen)
    else
      let r := vsz h fuel (.val (h.getD a (.strct []))) (a :: seen)
      (8 + r.1, r.2)
  | fuel + 1, .val (.strct fs), seen =>
    let r := vsz h fuel (.fields fs) seen
    (typeSize (fuel + 1) (.strct fs) + r.1, r.2)
  | _ + 1, .fields [], seen => (0, seen)
  | fuel + 1, .fields (.ptr (some a) :: fs), seen =>
    if a ∈ seen then vsz h fuel (.fields fs) seen
    else
      let r := vsz h fuel (.val (h.getD a (.strct []))) (a :: seen)
      let r2 := vsz h fuel (.fields fs) r.2
      (r.1 + r2.1, r2.2)
  | fuel + 1, .fields (_ :: fs), seen => vsz h fuel (.fields fs) seen

/-- utils.go DeepSize: valueSize with a fresh `seen` map, as an int64. -/
def DeepSize (h : List GoVal) (fuel : Nat) (v : GoVal) : Int :=
  ((vsz h fuel (.val v) []).1 : Int)

/-- Severing of back-references for the cycle-safety claim: inside a struct
field, a pointer to `root` is replaced by nil. -/
def severField (root : Nat) : GoVal → GoVal
  | .ptr (some a) => if a = root then .ptr none else .ptr (some a)
  | f => f

/-- Severing of back-references in one heap cell: a direct pointer to `root`,
or a struct's pointer fields to `root`, become nil.  (Pointers buried inside
nested struct fields are never traversed by valueSize, so severing the
traversed positions is exactly "the back-reference set to nil".) -/
def severVal (root : Nat) : GoVal → GoVal
  | .ptr (some a) => if a = root then .ptr none else .ptr (some a)
  | .strct fs => .strct (fs.map (severField root))
  | v => v

/-- cache.go Item: the stored object, the absolute expiration instant in
nanoseconds (0 = never expires) and the recorded estimated size. -/
structure Item where
  Object : GoVal
  Expiration : Int
  Mem : Int

/-- The construction options consumed by the store (src/unnamed/part_000
Option): item capacity (0 = unbounded), byte memory limit and default TTL. -/
structure CacheOption where
  Capacity : Int
  MemoryLimit : Int
  DefaultExpiration : Int

/-- The mutable store state of cache.go `cache`: the key→item map (an
association list with unique keys), the running memory counter and the FIFO
key-manager queue (oldest first). -/
structure CacheState where
  items : List (String × Item)
  memUsage : Int
  queue : List String

/-- Errors surfaced by the store and the key manager. -/
inductive Err where
  | emptyQueue
  | invalidKey
  | alreadyExists
  | notFound
deriving DecidableEq, Repr

/-- Pointer size on a 64-bit platform (cache.go PtrSize). -/
def PtrSize : Nat := 8

/-- cache.go addMemUsage. -/
def addMemUsage (memUsage mem : Int) : Int := memUsage + mem

/-- cache.go deductMemUsage: subtract, clamping a negative result to zero
(`left` in the Go code is the difference). -/
def deductMemUsage (memUsage mem : Int) : Int :=
  if memUsage - mem < 0 then 0 else memUsage - mem

/-- cache.go calculateItemSize: DeepSize of the key string plus DeepSize of
the value plus one pointer. -/
def calculateItemSize (h : List GoVal) (fuel : Nat) (k : String) (v : GoVal) : Int :=
  DeepSize h fuel (.str k.length) + DeepSize h fuel v + (PtrSize : Int)

/-- Go map read: the item stored under `k`, if any. -/
def lookupItem : List (String × Item) → String → Option Item
  | [], _ => none
  | (k', it) :: rest, k => if k' = k then some it else lookupItem rest k

/-- Go `delete(p.items, k)`: drop the binding of `k`. -/
def eraseItem : List (String × Item) → String → List (String × Item)
  | [], _ => []
  | (k', it) :: rest, k => if k' = k then rest else (k', it) :: eraseItem rest k

/-- Go map write `p.items[k] = it`: replace in place, or append a new
binding. -/
def insertItem : List (String × Item) → String → Item → List (String × Item)
  | [], k, it => [(k, it)]
  | (k', it') :: rest, k, it =>
    if k' = k then (k, it) :: rest else (k', it') :: insertItem rest k it

/-- key manager queue `remove` (part_001): delete the first occurrence. -/
def qremove : List String → String → List String
  | [], _ => []
  | x :: xs, k => if x = k then xs else x :: qremove xs k

/-- cache.go `delete` (the private one): if the key is present, remove the
binding, deduct its recorded size from the counter and remove the key from
the key manager; returns the new state and whether a binding was removed. -/
def del (st : CacheState) (k : String) : CacheState × Bool :=
  match lookupItem st.items k with
  | none => (st, false)
  | some it =>
    ({ items := eraseItem st.items k
       memUsage := deductMemUsage st.memUsage it.Mem
       queue := qremove st.queue k }, true)

/-- cache.go getItem: the binding of `k` if present and not expired (an
expiration instant > 0 that is strictly in the past means expired). -/
def getItem (st : CacheState) (k : String) (now : Int) : Option Item :=
  match lookupItem st.items k with
  | none => none
  | some item =>
    if 0 < item.Expiration ∧ item.Expiration < now then none else some item

/-- cache.go get / Get (the read path): the object and the presence flag,
with the lazy expiration check and no mutation of the store. -/
def Get (st : CacheState) (k : String) (now : Int) : Option GoVal × Bool :=
  match lookupItem st.items k with
  | none => (none, false)
  | some item =>
    if 0 < item.Expiration then
      if item.Expiration < now then (none, false) else (some item.Object, true)
    else (some item.Object, true)

/-- The absolute expiration instant computed at the top of cache.go `set`:
a zero duration is replaced by the default expiration, then any positive
duration is added to `now`; otherwise the instant stays 0 (never expires). -/
def expOf (opt : CacheOption) (now : Int) (d : Int) : Int :=
  let d' := if d = 0 then opt.DefaultExpiration else d
  if 0 < d' then now + d' else 0

/-- The memory-limit eviction loop of cache.go `set` (lines 327–349): while
space is still required, peek the key manager (error when empty), reject the
empty key, skip — without removing — a peeked entry that getItem considers
absent (this branch repeats forever: nothing changes), otherwise subtract the
victim's recorded size from the requirement and delete it.  `none` means the
fuel ran out, i.e. the loop did not terminate within `fuel` iterations. -/
def memEvictionLoop (now : Int) : Nat → CacheState → Int → Option (CacheState × Option Err)
  | 0, st, req => if req ≤ 0 then some (st, none) else none
  | fuel + 1, st, req =>
    if req ≤ 0 then some (st, none)
    else
      match st.queue.head? with
      | none => some (st, some .emptyQueue)
      | some key =>
        if key = "" then some (st, some .invalidKey)
        else
          match getItem st key now with
          | none => memEvictionLoop now fuel st req
          | some item => memEvictionLoop now fuel (del st key).1 (req - item.Mem)

/-- The capacity check of cache.go `set` (lines 317–324): if a capacity is
configured and the entry count has reached it, evict the key manager's front
(error when the key manager is empty). -/
def capPhase (opt : CacheOption) (st : CacheState) : CacheState × Option Err :=
  if 0 < opt.Capacity ∧ opt.Capacity ≤ (st.items.length : Int) then
    match st.queue.head? with
    | none => (st, some .emptyQueue)
    | some key => ((del st key).1, none)
  else (st, none)

/-- The final write of cache.go `set` (lines 351–363): store the item, add
its size to the counter and append the key to the key manager (the store's
queue is unbounded — NewQueue(0) — so Track always accepts). -/
def finishInsert (st : CacheState) (k : String) (v : GoVal) (e size : Int) : CacheState :=
  { items := insertItem st.items k ⟨v, e, size⟩
    memUsage := addMemUsage st.memUsage size
    queue := st.queue ++ [k] }

/-- cache.go `set`: compute expiration and size, run the capacity check, run
the memory-limit eviction loop, then write the entry.  An error return
carries the state as mutated so far (the Go code returns mid-function without
undoing anything); `none` means the eviction loop diverged. -/
def set (h : List GoVal) (szFuel loopFuel : Nat) (opt : CacheOption) (now : Int)
    (st : CacheState) (k : String) (v : GoVal) (d : Int) :
    Option (CacheState × Option Err) :=
  let e := expOf opt now d
  let size := calculateItemSize h szFuel k v
  match capPhase opt st with
  | (st1, some er) => some (st1, some er)
  | (st1, none) =>
    let afterMem : Option (CacheState × Option Err) :=
      if 0 < opt.MemoryLimit ∧ opt.MemoryLimit ≤ st1.memUsage + size then
        memEvictionLoop now loopFuel st1 (st1.memUsage + size - opt.MemoryLimit)
      else some (st1, none)
    match afterMem with
    | none => none
    | some (st2, some er) => some (st2, some er)
    | some (st2, none) => some (finishInsert st2 k v e size, none)

/-- cache.go Set: the public insert (take the lock, call `set`). -/
def Set (h : List GoVal) (szFuel loopFuel : Nat) (opt : CacheOption) (now : Int)
    (st : CacheState) (k : String) (v : GoVal) (d : Int) :
    Option (CacheState × Option Err) :=
  set h szFuel loopFuel opt now st k v d

/-- cache.go Add (insert-if-absent): error if `get` finds a live entry,
otherwise `set`. -/
def Add (h : List GoVal) (szFuel loopFuel : Nat) (opt : CacheOption) (now : Int)
    (st : CacheState) (k : String) (v : GoVal) (d : Int) :
    Option (CacheState × Option Err) :=
  if (Get st k now).2 then some (st, some .alreadyExists)
  else set h szFuel loopFuel opt now st k v d

/-- cache.go Replace: error if getItem misses, otherwise deduct the old
entry's size, run `set`, then move the key to the tail of the key manager
(Delete then Add). -/
def Replace (h : List GoVal) (szFuel loopFuel : Nat) (opt : CacheOption) (now : Int)
    (st : CacheState) (k : String) (v : GoVal) (d : Int) :
    Option (CacheState × Option Err) :=
  match getItem st k now with
  | none => some (st, some .notFound)
  | some item =>
    let st1 := { st with memUsage := deductMemUsage st.memUsage item.Mem }
    match set h szFuel loopFuel opt now st1 k v d with
    | none => none
    | some (st2, some er) => some (st2, some er)
    | some (st2, none) =>
      some ({ st2 with queue := qremove st2.queue k ++ [k] }, none)

/-- cache.go Delete: remove the key if present (state effect only; the
eviction callback carries no state). -/
def Delete (st : CacheState) (k : String) : CacheState :=
  (del st k).1

/-- cache.go DeleteExpired: delete every entry whose expiration instant is
positive and in the past.  The Go range order over the map is arbitrary; the
association-list order is used (the resulting state does not depend on the
order: deletions of distinct keys commute). -/
def DeleteExpired (now : Int) (st : CacheState) : CacheState :=
  (st.items.map Prod.fst).foldl
    (fun acc k =>
      match lookupItem acc.items k with
      | some v => if 0 < v.Expiration ∧ v.Expiration < now then (del acc k).1 else acc
      | none => acc)
    st

/-- cache.go Flush: replace the item map with a fresh empty one.  Nothing
else changes: the memory counter and the key manager keep their values. -/
def Flush (st : CacheState) : CacheState :=
  { st with items := [] }

/-- cache.go Size: the current entry count. -/
def Size (st : CacheState) : Nat := st.items.length

/-- cache.go Alloc: the current memory counter. -/
def Alloc (st : CacheState) : Int := st.memUsage

/-- The state of a freshly constructed cache (src/unnamed/part_000 New with
NewQueue(0)): empty map, zero counter, empty queue. -/
def newCache : CacheState := { items := [], memUsage := 0, queue := [] }

/-- One public mutating operation, with the instant at which it runs. -/
inductive Op where
  | opSet (now : Int) (k : String) (v : GoVal) (d : Int)
  | opAdd (now : Int) (k : String) (v : GoVal) (d : Int)
  | opReplace (now : Int) (k : String) (v : GoVal) (d : Int)
  | opDelete (k : String)
  | opDeleteExpired (now : Int)
  | opFlush

/-- Run one operation.  A diverging insert (`none`) never returns in Go, so
no later state exists; the runner keeps the pre-operation state in that case
so that sequences stay total. -/
def runOp (h : List GoVal) (szFuel loopFuel : Nat) (opt : CacheOption) :
    Op → CacheState → CacheState
  | .opSet now k v d, st =>
    match Set h szFuel loopFuel opt now st k v d with
    | none => st
    | some (st', _) => st'
  | .opAdd now k v d, st =>
    match Add h szFuel loopFuel opt now st k v d with
    | none => st
    | some (st', _) => st'
  | .opReplace now k v d, st =>
    match Replace h szFuel loopFuel opt now st k v d with
    | none => st
    | some (st', _) => st'
  | .opDelete k, st => Delete st k
  | .opDeleteExpired now, st => DeleteExpired now st
  | .opFlush, st => Flush st

/-- Run a sequence of public operations. -/
def runOps (h : List GoVal) (szFuel loopFuel : Nat) (opt : CacheOption)
    (ops : List Op) (st : CacheState) : CacheState :=
  ops.foldl (fun s op => runOp h szFuel loopFuel opt op s) st

/-- The sum of the recorded sizes of the stored entries. -/
def sumMems (items : List (String × Item)) : Int :=
  (items.map (fun p => p.2.Mem)).sum

/-- The memory-accounting precondition used below: every recorded size is
nonnegative and the counter is at least the sum of the recorded sizes.  It
holds in a fresh store and is preserved by inserts and deletes (Replace can
break it by double-deducting the replaced entry's size). -/
def memInv (st : CacheState) : Prop :=
  (∀ p ∈ st.items, 0 ≤ p.2.Mem) ∧ sumMems st.items ≤ st.memUsage

/-! ### Basic lemmas about the map and the accounting helpers -/

theorem lookupItem_insertItem_self (xs : List (String × Item)) (k : String) (it : Item) :
    lookupItem (insertItem xs k it) k = some it := by
  induction xs with
  | nil => simp [insertItem, lookupItem]
  | cons p rest ih =>
    obtain ⟨k', it'⟩ := p
    by_cases hk : k' = k
    · simp [insertItem, hk, lookupItem]
    · simp [insertItem, hk, lookupItem, ih]

theorem insertItem_length_ge (xs : List (String × Item)) (k : String) (it : Item) :
    xs.length ≤ (insertItem xs k it).length := by
  induction xs with
  | nil => simp [insertItem]
  | cons p rest ih =>
    obtain ⟨k', it'⟩ := p
    by_cases hk : k' = k
    · simp [insertItem, hk]
    · simpa [insertItem, hk] using ih

theorem sumMems_nil : sumMems [] = 0 := rfl

theorem sumMems_cons (p : String × Item) (rest : List (String × Item)) :
    sumMems (p :: rest) = p.2.Mem + sumMems rest := by
  simp [sumMems]

theorem sumMems_nonneg {xs : List (String × Item)} (h : ∀ p ∈ xs, 0 ≤ p.2.Mem) :
    0 ≤ sumMems xs := by
  induction xs with
  | nil => simp [sumMems]
  | cons p rest ih =>
    rw [sumMems_cons]
    have hp := h p (by simp)
    have hr := ih (fun q hq => h q (List.mem_cons_of_mem _ hq))
    omega

theorem sumMems_erase {xs : List (String × Item)} {k : String} {it : Item}
    (hl : lookupItem xs k = some it) :
    sumMems (eraseItem xs k) = sumMems xs - it.Mem := by
  induction xs with
  | nil => simp [lookupItem] at hl
  | cons p rest ih =>
    obtain ⟨k', it'⟩ := p
    by_cases hk : k' = k
    · simp [lookupItem, hk] at hl
      subst hl
      simp [eraseItem, hk, sumMems_cons]
    · simp [lookupItem, hk] at hl
      rw [eraseItem]
      simp only [if_neg hk]
      rw [sumMems_cons, sumMems_cons, ih hl]
      ring

theorem eraseItem_subset {xs : List (String × Item)} {k : String} {p : String × Item}
    (h : p ∈ eraseItem xs k) : p ∈ xs := by
  induction xs with
  | nil => simp [eraseItem] at h
  | cons q rest ih =>
    obtain ⟨k', it'⟩ := q
    by_cases hk : k' = k
    · rw [eraseItem, if_pos hk] at h
      exact List.mem_cons_of_mem _ h
    · rw [eraseItem, if_neg hk] at h
      rcases List.mem_cons.mp h with h1 | h2
      · simp [h1]
      · exact List.mem_cons_of_mem _ (ih h2)

theorem lookupItem_mem {xs : List (String × Item)} {k : String} {it : Item}
    (hl : lookupItem xs k = some it) : (k, it) ∈ xs := by
  induction xs with
  | nil => simp [lookupItem] at hl
  | cons p rest ih =>
    obtain ⟨k', it'⟩ := p
    by_cases hk : k' = k
    · simp [lookupItem, hk] at hl
      simp [hk, hl]
    · simp [lookupItem, hk] at hl
      exact List.mem_cons_of_mem _ (ih hl)

theorem lookup_Mem_le_sumMems {xs : List (String × Item)} {k : String} {it : Item}
    (hl : lookupItem xs k = some it) (h0 : ∀ p ∈ xs, 0 ≤ p.2.Mem) :
    it.Mem ≤ sumMems xs := by
  induction xs with
  | nil => simp [lookupItem] at hl
  | cons p rest ih =>
    obtain ⟨k', it'⟩ := p
    rw [sumMems_cons]
    by_cases hk : k' = k
    · simp [lookupItem, hk] at hl
      subst hl
      have := sumMems_nonneg (fun q hq => h0 q (List.mem_cons_of_mem _ hq))
      simp only
      omega
    · simp [lookupItem, hk] at hl
      have h2 := ih hl (fun q hq => h0 q (List.mem_cons_of_mem _ hq))
      have hp : 0 ≤ it'.Mem := h0 (k', it') (by simp)
      simp only
      omega

theorem deductMemUsage_nonneg (x m : Int) : 0 ≤ deductMemUsage x m := by
  unfold deductMemUsage
  split <;> omega

theorem deductMemUsage_eq_sub {x m : Int} (h : m ≤ x) : deductMemUsage x m = x - m := by
  unfold deductMemUsage
  split <;> omega

theorem deductMemUsage_eq_max (x m : Int) : deductMemUsage x m = max (x - m) 0 := by
  unfold deductMemUsage
  split <;> omega

theorem calculateItemSize_nonneg (h : List GoVal) (fuel : Nat) (k : String) (v : GoVal) :
    0 ≤ calculateItemSize h fuel k v := by
  unfold calculateItemSize DeepSize PtrSize
  positivity

/-! ### Lemmas about delete and the eviction machinery -/

theorem getItem_lookup {st : CacheState} {k : String} {now : Int} {it : Item}
    (hg : getItem st k now = some it) : lookupItem st.items k = some it := by
  unfold getItem at hg
  rcases hl : lookupItem st.items k with _ | item <;> rw [hl] at hg
  · simp at hg
  · by_cases hc : 0 < item.Expiration ∧ item.Expiration < now
    · simp [hc] at hg
    · simp [hc] at hg
      rw [hg]

theorem del_memInv {st : CacheState} (k : String) (h : memInv st) : memInv (del st k).1 := by
  obtain ⟨h0, hsum⟩ := h
  unfold del
  rcases hl : lookupItem st.items k with _ | it
  · exact ⟨h0, hsum⟩
  · refine ⟨fun p hp => h0 p (eraseItem_subset hp), ?_⟩
    simp only
    rw [sumMems_erase hl]
    have hle := lookup_Mem_le_sumMems hl h0
    rw [deductMemUsage_eq_sub (le_trans hle hsum)]
    omega

theorem del_memUsage_of_lookup {st : CacheState} {k : String} {it : Item}
    (hl : lookupItem st.items k = some it) (h : memInv st) :
    (del st k).1.memUsage = st.memUsage - it.Mem := by
  obtain ⟨h0, hsum⟩ := h
  unfold del
  rw [hl]
  simp only
  exact deductMemUsage_eq_sub (le_trans (lookup_Mem_le_sumMems hl h0) hsum)

theorem del_memUsage_nonneg {st : CacheState} (k : String) (h : 0 ≤ st.memUsage) :
    0 ≤ (del st k).1.memUsage := by
  unfold del
  rcases hl : lookupItem st.items k with _ | it
  · exact h
  · exact deductMemUsage_nonneg _ _

theorem memEvictionLoop_le (now : Int) :
    ∀ (fuel : Nat) (st : CacheState) (req : Int) (st2 : CacheState),
      memInv st → memEvictionLoop now fuel st req = some (st2, none) →
      memInv st2 ∧ st2.memUsage ≤ st.memUsage - req := by
  intro fuel
  induction fuel with
  | zero =>
    intro st req st2 hinv hrun
    unfold memEvictionLoop at hrun
    split at hrun
    · simp only [Option.some.injEq, Prod.mk.injEq, and_true] at hrun
      subst hrun
      exact ⟨hinv, by omega⟩
    · simp at hrun
  | succ fuel ih =>
    intro st req st2 hinv hrun
    unfold memEvictionLoop at hrun
    split at hrun
    · next hreq =>
      simp only [Option.some.injEq, Prod.mk.injEq, and_true] at hrun
      subst hrun
      exact ⟨hinv, by omega⟩
    · rcases hq : st.queue.head? with _ | key <;> simp only [hq] at hrun
      · simp at hrun
      · split at hrun
        · simp at hrun
        · rcases hg : getItem st key now with _ | item <;> simp only [hg] at hrun
          · exact ih st req st2 hinv hrun
          · have hinv' := del_memInv key hinv
            obtain ⟨hinv2, hle⟩ := ih _ _ _ hinv' hrun
            have hdm := del_memUsage_of_lookup (getItem_lookup hg) hinv
            exact ⟨hinv2, by omega⟩

theorem memEvictionLoop_nonneg (now : Int) :
    ∀ (fuel : Nat) (st : CacheState) (req : Int) (st2 : CacheState) (r : Option Err),
      0 ≤ st.memUsage → memEvictionLoop now fuel st req = some (st2, r) →
      0 ≤ st2.memUsage := by
  intro fuel
  induction fuel with
  | zero =>
    intro st req st2 r h0 hrun
    unfold memEvictionLoop at hrun
    split at hrun
    · simp only [Option.some.injEq, Prod.mk.injEq] at hrun
      obtain ⟨rfl, -⟩ := hrun
      exact h0
    · simp at hrun
  | succ fuel ih =>
    intro st req st2 r h0 hrun
    unfold memEvictionLoop at hrun
    split at hrun
    · simp only [Option.some.injEq, Prod.mk.injEq] at hrun
      obtain ⟨rfl, -⟩ := hrun
      exact h0
    · rcases hq : st.queue.head? with _ | key <;> simp only [hq] at hrun
      · simp only [Option.some.injEq, Prod.mk.injEq] at hrun
        obtain ⟨rfl, -⟩ := hrun
        exact h0
      · split at hrun
        · simp only [Option.some.injEq, Prod.mk.injEq] at hrun
          obtain ⟨rfl, -⟩ := hrun
          exact h0
        · rcases hg : getItem st key now with _ | item <;> simp only [hg] at hrun
          · exact ih st req st2 r h0 hrun
          · exact ih _ _ _ _ (del_memUsage_nonneg key h0) hrun

theorem capPhase_memInv (opt : CacheOption) (st : CacheState) (h : memInv st) :
    memInv (capPhase opt st).1 := by
  unfold capPhase
  split
  · split
    · exact h
    · exact del_memInv _ h
  · exact h

theorem capPhase_nonneg (opt : CacheOption) (st : CacheState) (h : 0 ≤ st.memUsage) :
    0 ≤ (capPhase opt st).1.memUsage := by
  unfold capPhase
  split
  · split
    · exact h
    · exact del_memUsage_nonneg _ h
  · exact h

theorem set_success_memle {h : List GoVal} {szF lF : Nat} {opt : CacheOption} {now : Int}
    {st : CacheState} {k : String} {v : GoVal} {d : Int} {st' : CacheState}
    (hL : 0 < opt.MemoryLimit) (hinv : memInv st)
    (hs : set h szF lF opt now st k v d = some (st', none)) :
    st'.memUsage ≤ opt.MemoryLimit := by
  unfold set at hs
  rcases hcap : capPhase opt st with ⟨st1, er⟩
  rw [hcap] at hs
  have hinv1 : memInv st1 := by
    have := capPhase_memInv opt st hinv
    rwa [hcap] at this
  cases er with
  | some er => simp at hs
  | none =>
    simp only at hs
    by_cases hmem : 0 < opt.MemoryLimit ∧
        opt.MemoryLimit ≤ st1.memUsage + calculateItemSize h szF k v
    · rw [if_pos hmem] at hs
      rcases hloop : memEvictionLoop now lF st1
          (st1.memUsage + calculateItemSize h szF k v - opt.MemoryLimit) with _ | ⟨st2, r2⟩
      · simp only [hloop] at hs
        exact Option.noConfusion hs
      · simp only [hloop] at hs
        cases r2 with
        | some er2 => simp at hs
        | none =>
          simp only [Option.some.injEq, Prod.mk.injEq, and_true] at hs
          obtain ⟨hinv2, hle⟩ := memEvictionLoop_le now lF st1 _ st2 hinv1 hloop
          subst hs
          show addMemUsage st2.memUsage _ ≤ _
          unfold addMemUsage
          omega
    · rw [if_neg hmem] at hs
      simp only [Option.some.injEq, Prod.mk.injEq, and_true] at hs
      subst hs
      show addMemUsage st1.memUsage _ ≤ _
      unfold addMemUsage
      rw [not_and] at hmem
      have := hmem hL
      omega

theorem set_success_shape {h : List GoVal} {szF lF : Nat} {opt : CacheOption} {now : Int}
    {st : CacheState} {k : String} {v : GoVal} {d : Int} {st' : CacheState}
    (hs : set h szF lF opt now st k v d = some (st', none)) :
    ∃ st2, st' = finishInsert st2 k v (expOf opt now d) (calculateItemSize h szF k v) := by
  unfold set at hs
  rcases hcap : capPhase opt st with ⟨st1, er⟩
  rw [hcap] at hs
  cases er with
  | some er => simp at hs
  | none =>
    simp only at hs
    by_cases hmem : 0 < opt.MemoryLimit ∧
        opt.MemoryLimit ≤ st1.memUsage + calculateItemSize h szF k v
    · rw [if_pos hmem] at hs
      rcases hloop : memEvictionLoop now lF st1
          (st1.memUsage + calculateItemSize h szF k v - opt.MemoryLimit) with _ | ⟨st2, r2⟩
      · simp only [hloop] at hs
        exact Option.noConfusion hs
      · simp only [hloop] at hs
        cases r2 with
        | some er2 => simp at hs
        | none =>
          simp only [Option.some.injEq, Prod.mk.injEq, and_true] at hs
          exact ⟨st2, hs.symm⟩
    · rw [if_neg hmem] at hs
      simp only [Option.some.injEq, Prod.mk.injEq, and_true] at hs
      exact ⟨st1, hs.symm⟩

theorem set_success_lookup {h : List GoVal} {szF lF : Nat} {opt : CacheOption} {now : Int}
    {st : CacheState} {k : String} {v : GoVal} {d : Int} {st' : CacheState}
    (hs : set h szF lF opt now st k v d = some (st', none)) :
    lookupItem st'.items k = some ⟨v, expOf opt now d, calculateItemSize h szF k v⟩ := by
  obtain ⟨st2, rfl⟩ := set_success_shape hs
  exact lookupItem_insertItem_self _ _ _

theorem Get_of_lookup_noexp {st : CacheState} {k : String} {v : GoVal} {m : Int}
    (hl : lookupItem st.items k = some ⟨v, 0, m⟩) (now' : Int) :
    Get st k now' = (some v, true) := by
  unfold Get
  rw [hl]
  simp

theorem expOf_zero_pos (opt : CacheOption) (now : Int) (hpos : 0 < opt.DefaultExpiration) :
    expOf opt now 0 = now + opt.DefaultExpiration := by
  unfold expOf
  rw [if_pos (show (0 : Int) = 0 from rfl), if_pos hpos]

theorem expOf_zero_nonpos (opt : CacheOption) (now : Int) (hnp : opt.DefaultExpiration ≤ 0) :
    expOf opt now 0 = 0 := by
  unfold expOf
  rw [if_pos (show (0 : Int) = 0 from rfl), if_neg (not_lt.mpr hnp)]

theorem expOf_neg (opt : CacheOption) (now : Int) {d : Int} (hd : d < 0) :
    expOf opt now d = 0 := by
  unfold expOf
  rw [if_neg (show ¬(d = 0) by omega)]
  rw [if_neg (show ¬(0 < d) by omega)]

theorem expOf_pos (opt : CacheOption) (now : Int) {d : Int} (hd : 0 < d) :
    expOf opt now d = now + d := by
  unfold expOf
  rw [if_neg (show ¬(d = 0) by omega)]
  rw [if_pos hd]

theorem set_nonneg {h : List GoVal} {szF lF : Nat} {opt : CacheOption} {now : Int}
    {st : CacheState} {k : String} {v : GoVal} {d : Int} {st' : CacheState} {r : Option Err}
    (h0 : 0 ≤ st.memUsage) (hs : set h szF lF opt now st k v d = some (st', r)) :
    0 ≤ st'.memUsage := by
  unfold set at hs
  rcases hcap : capPhase opt st with ⟨st1, er⟩
  rw [hcap] at hs
  have h1 : 0 ≤ st1.memUsage := by
    have := capPhase_nonneg opt st h0
    rwa [hcap] at this
  cases er with
  | some er =>
    simp only [Option.some.injEq, Prod.mk.injEq] at hs
    obtain ⟨rfl, -⟩ := hs
    exact h1
  | none =>
    simp only at hs
    by_cases hmem : 0 < opt.MemoryLimit ∧
        opt.MemoryLimit ≤ st1.memUsage + calculateItemSize h szF k v
    · rw [if_pos hmem] at hs
      rcases hloop : memEvictionLoop now lF st1
          (st1.memUsage + calculateItemSize h szF k v - opt.MemoryLimit) with _ | ⟨st2, r2⟩
      · simp only [hloop] at hs
        exact Option.noConfusion hs
      · simp only [hloop] at hs
        have h2 := memEvictionLoop_nonneg now lF st1 _ st2 r2 h1 hloop
        cases r2 with
        | some er2 =>
          simp only [Option.some.injEq, Prod.mk.injEq] at hs
          obtain ⟨rfl, -⟩ := hs
          exact h2
        | none =>
          simp only [Option.some.injEq, Prod.mk.injEq] at hs
          obtain ⟨rfl, -⟩ := hs
          have := calculateItemSize_nonneg h szF k v
          show 0 ≤ addMemUsage st2.memUsage _
          unfold addMemUsage
          omega
    · rw [if_neg hmem] at hs
      simp only [Option.some.injEq, Prod.mk.injEq] at hs
      obtain ⟨rfl, -⟩ := hs
      have := calculateItemSize_nonneg h szF k v
      show 0 ≤ addMemUsage st1.memUsage _
      unfold addMemUsage
      omega

/-! ### Cycle-safety of the estimator: severing back-references to the root -/

/-- Severing lifted to estimator work items. -/
def severTask (root : Nat) : SzTask → SzTask
  | .val v => .val (severVal root v)
  | .fields fs => .fields (fs.map (severField root))

theorem typeSize_severField (root : Nat) (fuel : Nat) (f : GoVal) :
    typeSize fuel (severField root f) = typeSize fuel f := by
  cases fuel with
  | zero => rfl
  | succ fuel =>
    cases f with
    | i64 n => rfl
    | str n => rfl
    | strct fs => rfl
    | ptr a =>
      cases a with
      | none => rfl
      | some x =>
        by_cases hx : x = root
        · simp [severField, hx, typeSize]
        · simp [severField, hx]

theorem typeSize_map_severField (root : Nat) (fuel : Nat) (fs : List GoVal) :
    typeSize fuel (.strct (fs.map (severField root))) = typeSize fuel (.strct fs) := by
  induction fs generalizing fuel with
  | nil => rfl
  | cons f fs ih =>
    cases fuel with
    | zero => rfl
    | succ fuel =>
      show typeSize fuel (severField root f) + typeSize fuel (.strct (fs.map (severField root)))
          = typeSize fuel f + typeSize fuel (.strct fs)
      rw [typeSize_severField, ih]

theorem getD_map_severVal (root : Nat) (l : List GoVal) (a : Nat) :
    (l.map (severVal root)).getD a (.strct []) = severVal root (l.getD a (.strct [])) := by
  induction l generalizing a with
  | nil => rfl
  | cons x xs ih =>
    cases a with
    | zero => rfl
    | succ n =>
      simp only [List.map_cons, List.getD_cons_succ]
      exact ih n

theorem vsz_seen_mono (h : List GoVal) :
    ∀ (fuel : Nat) (t : SzTask) (seen : List Nat), seen ⊆ (vsz h fuel t seen).2 := by
  intro fuel
  induction fuel with
  | zero =>
    intro t seen
    exact fun _ hx => hx
  | succ fuel ih =>
    intro t seen
    cases t with
    | val v =>
      cases v with
      | i64 n => exact fun _ hx => hx
      | str n => exact fun _ hx => hx
      | strct fs => exact ih (.fields fs) seen
      | ptr a =>
        cases a with
        | none => exact fun _ hx => hx
        | some x =>
          by_cases hx : x ∈ seen
          · simp only [vsz, if_pos hx]
            exact fun _ hy => hy
          · simp only [vsz, if_neg hx]
            exact fun y hy => ih _ _ (List.mem_cons_of_mem _ hy)
    | fields fs =>
      cases fs with
      | nil => exact fun _ hx => hx
      | cons f fs =>
        cases f with
        | i64 n => exact ih (.fields fs) seen
        | str n => exact ih (.fields fs) seen
        | strct gs => exact ih (.fields fs) seen
        | ptr a =>
          cases a with
          | none => exact ih (.fields fs) seen
          | some x =>
            by_cases hx : x ∈ seen
            · simp only [vsz, if_pos hx]
              exact ih (.fields fs) seen
            · simp only [vsz, if_neg hx]
              exact fun y hy =>
                ih (.fields fs) _ (ih (.val _) (x :: seen) (List.mem_cons_of_mem _ hy))

theorem vsz_sever (h : List GoVal) (root : Nat) :
    ∀ (fuel : Nat) (t : SzTask) (seen : List Nat), root ∈ seen →
      vsz (h.map (severVal root)) fuel (severTask root t) seen = vsz h fuel t seen := by
  intro fuel
  induction fuel with
  | zero => intro t seen _; rfl
  | succ fuel ih =>
    intro t seen hroot
    cases t with
    | val v =>
      cases v with
      | i64 n => rfl
      | str n => rfl
      | strct fs =>
        show vsz _ (fuel + 1) (.val (.strct (fs.map (severField root)))) seen = _
        simp only [vsz]
        rw [typeSize_map_severField]
        rw [show vsz (h.map (severVal root)) fuel (.fields (fs.map (severField root))) seen
            = vsz h fuel (.fields fs) seen from ih (.fields fs) seen hroot]

      | ptr a =>
        cases a with
        | none => rfl
        | some x =>
          by_cases hx : x = root
          · subst hx
            show vsz _ (fuel + 1) (.val (severVal x (.ptr (some x)))) seen = _
            simp only [severVal, if_pos rfl]
            simp only [vsz, if_pos hroot]
          · show vsz _ (fuel + 1) (.val (severVal root (.ptr (some x)))) seen = _
            simp only [severVal, if_neg hx]
            by_cases hseen : x ∈ seen
            · simp only [vsz, if_pos hseen]
            · simp only [vsz, if_neg hseen]
              rw [getD_map_severVal]
              rw [show vsz (h.map (severVal root)) fuel
                    (.val (severVal root (h.getD x (.strct [])))) (x :: seen)
                  = vsz h fuel (.val (h.getD x (.strct []))) (x :: seen) from
                ih (.val _) (x :: seen) (List.mem_cons_of_mem _ hroot)]
    | fields fs =>
      cases fs with
      | nil => rfl
      | cons f fs =>
        cases f with
        | i64 n => exact ih (.fields fs) seen hroot
        | str n => exact ih (.fields fs) seen hroot
        | strct gs => exact ih (.fields fs) seen hroot
        | ptr a =>
          cases a with
          | none => exact ih (.fields fs) seen hroot
          | some x =>
            by_cases hx : x = root
            · subst hx
              show vsz _ (fuel + 1) (.fields (severField x (.ptr (some x)) :: _)) seen = _
              simp only [severField, if_pos rfl]
              simp only [vsz, if_pos hroot]
              exact ih (.fields fs) seen hroot
            · show vsz _ (fuel + 1) (.fields (severField root (.ptr (some x)) :: _)) seen = _
              simp only [severField, if_neg hx]
              by_cases hseen : x ∈ seen
              · simp only [vsz, if_pos hseen]
                exact ih (.fields fs) seen hroot
              · simp only [vsz, if_neg hseen]
                rw [getD_map_severVal]
                have h1 : vsz (h.map (severVal root)) fuel
                      (.val (severVal root (h.getD x (.strct [])))) (x :: seen)
                    = vsz h fuel (.val (h.getD x (.strct []))) (x :: seen) :=
                  ih (.val _) (x :: seen) (List.mem_cons_of_mem _ hroot)
                rw [h1]
                have hroot2 : root ∈ (vsz h fuel (.val (h.getD x (.strct []))) (x :: seen)).2 :=
                  vsz_seen_mono h fuel (.val _) (x :: seen) (List.mem_cons_of_mem _ hroot)
                rw [show vsz (h.map (severVal root)) fuel (.fields (fs.map (severField root)))
                      (vsz h fuel (.val (h.getD x (.strct []))) (x :: seen)).2
                    = vsz h fuel (.fields fs)
                      (vsz h fuel (.val (h.getD x (.strct []))) (x :: seen)).2 from
                  ih (.fields fs) _ hroot2]

/-! ### A state on which the eviction loop never terminates -/

/-- An option record with memory limit 100 and no capacity. -/
def optWedge : CacheOption := ⟨0, 100, 0⟩

/-- A reachable store holding one entry "a" that expired at instant 10, with
the key manager fronting "a": exactly the result of Set("a", 4-byte string,
ttl 10ns) on a fresh store at instant 0. -/
def stWedge : CacheState := ⟨[("a", ⟨.str 4, 10, 45⟩)], 45, ["a"]⟩

theorem memEvictionLoop_stWedge (fuel : Nat) :
    memEvictionLoop 20 fuel stWedge 45 = none := by
  induction fuel with
  | zero => rfl
  | succ fuel ih =>
    have hstep : memEvictionLoop 20 (fuel + 1) stWedge 45
        = memEvictionLoop 20 fuel stWedge 45 := rfl
    rw [hstep, ih]

/-! ### Nonnegativity of the counter under every public operation -/

theorem DeleteExpired_nonneg (now : Int) (st : CacheState) (h0 : 0 ≤ st.memUsage) :
    0 ≤ (DeleteExpired now st).memUsage := by
  unfold DeleteExpired
  generalize st.items.map Prod.fst = keys
  induction keys generalizing st with
  | nil => exact h0
  | cons k keys ih =>
    simp only [List.foldl_cons]
    apply ih
    rcases hl : lookupItem st.items k with _ | v
    · simpa [hl] using h0
    · simp only [hl]
      split


      · exact del_memUsage_nonneg k h0
      · exact h0

theorem runOp_nonneg (h : List GoVal) (szF lF : Nat) (opt : CacheOption) (op : Op)
    (st : CacheState) (h0 : 0 ≤ st.memUsage) :
    0 ≤ (runOp h szF lF opt op st).memUsage := by
  cases op with
  | opSet now k v d =>
    unfold runOp Set
    rcases hs : set h szF lF opt now st k v d with _ | ⟨st', r⟩
    · simpa [hs] using h0
    · simp only [hs]
      exact set_nonneg h0 hs
  | opAdd now k v d =>
    unfold runOp Add
    by_cases hf : (Get st k now).2
    · simp only [if_pos hf]
      exact h0
    · simp only [if_neg hf]
      rcases hs : set h szF lF opt now st k v d with _ | ⟨st', r⟩
      · simpa [hs] using h0
      · simp only [hs]
        exact set_nonneg h0 hs
  | opReplace now k v d =>
    unfold runOp Replace
    rcases hg : getItem st k now with _ | item
    · simp only [hg]
      exact h0
    · simp only [hg]
      have h1 : 0 ≤ (deductMemUsage st.memUsage item.Mem) := deductMemUsage_nonneg _ _
      rcases hs : set h szF lF opt now
          { st with memUsage := deductMemUsage st.memUsage item.Mem } k v d with _ | ⟨st2, r⟩
      · simp only [hs]
        exact h0
      · cases r with
        | none =>
          show 0 ≤ st2.memUsage
          exact set_nonneg h1 hs
        | some er =>
          show 0 ≤ st2.memUsage
          exact set_nonneg h1 hs
  | opDelete k =>
    unfold runOp Delete
    exact del_memUsage_nonneg k h0
  | opDeleteExpired now =>
    unfold runOp
    exact DeleteExpired_nonneg now st h0
  | opFlush =>
    unfold runOp Flush
    exact h0

theorem runOps_nonneg (h : List GoVal) (szF lF : Nat) (opt : CacheOption)
    (ops : List Op) (st : CacheState) (h0 : 0 ≤ st.memUsage) :
    0 ≤ (runOps h szF lF opt ops st).memUsage := by
  induction ops generalizing st with
  | nil => exact h0
  | cons op ops ih =>
    simp only [runOps, List.foldl_cons]
    exact ih _ (runOp_nonneg h szF lF opt op st h0)

/-! ### Concrete states used by the claim theorems.

All value sizes below follow calculateItemSize on the 64-bit model: a
one-character key costs 17, a string value of length n costs 16 + n, plus the
8-byte per-entry pointer — so key "a" with value .str 4 records size 45. -/

/-- Same key inserted twice (never expiring) into a fresh store with memory
limit 1000: the overwrite adds the size again and re-appends the key to the
FIFO queue. -/
def stOverwrite : CacheState :=
  runOps [] 20 50 ⟨0, 1000, 0⟩
    [.opSet 0 "a" (.str 4) (-1), .opSet 0 "a" (.str 4) (-1)] newCache

/-- Options with memory limit 100 and no capacity bound. -/
def optMem100 : CacheOption := ⟨0, 100, 0⟩

/-- A fresh store with one never-expiring entry "a" of recorded size 45. -/
def stOneEntry : CacheState :=
  runOps [] 20 50 optMem100 [.opSet 0 "a" (.str 4) (-1)] newCache

/-- Options with memory limit 200 and no capacity bound. -/
def optMem200 : CacheOption := ⟨0, 200, 0⟩

/-- Three inserts (sizes 60, 45, 45) followed by a Replace of "a" by a size
115 value.  Replace deducts the old size 60 and then its inner set evicts "a"
itself, deducting the same 60 again, so the final counter (145) understates
the sum of the stored sizes (205) by 60. -/
def stUnderCounted : CacheState :=
  runOps [] 20 50 optMem200
    [ .opSet 0 "a" (.str 19) (-1)
    , .opSet 0 "b" (.str 4) (-1)
    , .opSet 0 "c" (.str 4) (-1)
    , .opReplace 0 "a" (.str 74) (-1) ] newCache

/-- Options with a default TTL of zero (the zero value of the Go Option
record, as in several of the repository's own tests) and memory limit 1000. -/
def optDef0 : CacheOption := ⟨0, 1000, 0⟩

/-- Options with capacity 2 and an ample memory limit. -/
def optCap2 : CacheOption := ⟨2, 1000000, 0⟩

/-- Two distinct never-expiring entries in a fresh capacity-2 store. -/
def stTwoEntries : CacheState :=
  runOps [] 20 50 optCap2 [.opSet 0 "a" (.str 4) (-1), .opSet 0 "b" (.str 4) (-1)] newCache

/-- Keys "1", "2", "3" inserted in order with a 20-second TTL at instant 0
into a fresh capacity-2 store. -/
def stCapTrace : CacheState :=
  runOps [] 20 50 optCap2
    [ .opSet 0 "1" (.str 4) 20000000000
    , .opSet 0 "2" (.str 4) 20000000000
    , .opSet 0 "3" (.str 4) 20000000000 ] newCache

/-- The state the C4 counterexample insert produces: only "d", size 245. -/
def stAfterD : CacheState := ⟨[("d", ⟨.str 204, 0, 245⟩)], 245, ["d"]⟩

/-- The state the C5 counterexample insert produces: "a" never expires. -/
def stAfterA : CacheState := ⟨[("a", ⟨.i64 5, 0, 33⟩)], 33, ["a"]⟩

/-- The state the C6 counterexample insert produces: only "b" remains, the
queue holds "b" twice. -/
def stAfterB : CacheState := ⟨[("b", ⟨.str 4, 0, 45⟩)], 90, ["b", "b"]⟩

/-! ### The claims -/

/-- C1: the claimed invariant — the memory counter equals the sum of the
stored entries' recorded sizes and the policy queue lists exactly the map's
keys, each once, after every public operation — is VIOLATED by the code:
after inserting the same key twice, the counter is 90 while the one stored
entry records 45, and the FIFO queue holds the key twice. -/
theorem C1_invariant_violated_by_overwrite :
    Alloc stOverwrite = 90 ∧ sumMems stOverwrite.items = 45
      ∧ stOverwrite.items.map Prod.fst = ["a"] ∧ stOverwrite.queue = ["a", "a"] :=
  ⟨rfl, rfl, rfl, rfl⟩

/-- C2: a failing insert is NOT state-preserving: with limit 100 and one
entry of size 45, inserting a value of size 300 evicts the entry, empties the
counter and the queue, and only then fails with the policy-exhaustion error —
the pre-state (one entry, counter 45, queue ["a"]) is not restored. -/
theorem C2_failed_insert_leaves_partial_eviction :
    stOneEntry.items.map Prod.fst = ["a"] ∧ Alloc stOneEntry = 45
      ∧ stOneEntry.queue = ["a"]
      ∧ Set [] 20 50 optMem100 0 stOneEntry "b" (.str 259) (-1)
          = some ({ items := [], memUsage := 0, queue := [] }, some .emptyQueue) :=
  ⟨rfl, rfl, rfl, rfl⟩

/-- C3: Flush (Clear) does NOT reset all three pieces simultaneously: it
empties the entry map but leaves the memory counter at 45 and the policy
queue still holding "a". -/
theorem C3_flush_resets_only_the_map :
    (Flush stOneEntry).items = [] ∧ Alloc (Flush stOneEntry) = 45
      ∧ (Flush stOneEntry).queue = ["a"]
      ∧ Alloc (Flush stOneEntry) ≠ 0 ∧ (Flush stOneEntry).queue ≠ [] :=
  ⟨rfl, rfl, rfl, by decide, by decide⟩

/-- C4 counterexample: from the reachable state stUnderCounted (whose counter
understates the stored sizes after a Replace that self-evicted), the insert
of "d" with recorded size 245 RETURNS SUCCESS and leaves MemoryUsed = 245,
strictly above the configured limit 200 — so claim (a), as stated over every
store state, is false. -/
theorem C4_claim_false :
    Set [] 20 50 optMem200 0 stUnderCounted "d" (.str 204) (-1) = some (stAfterD, none)
      ∧ optMem200.MemoryLimit < Alloc stAfterD :=
  ⟨rfl, by decide⟩

/-- C4 (amended): (a) after every successful Insert from a pre-state whose
memory counter is at least the sum of the tracked entries' (nonnegative)
recorded sizes — which holds on every insert/delete-only history, Replace
being the operation that can break it — MemoryUsed() is at most the positive
configured memory limit; and (b) an Insert whose computed size alone exceeds
the limit, into a fresh empty store, fails with the policy-exhaustion
(empty-queue) error and changes nothing. -/
theorem C4_memory_limit_amended :
    (∀ (h : List GoVal) (szF lF : Nat) (opt : CacheOption) (now : Int) (st : CacheState)
        (k : String) (v : GoVal) (d : Int) (st' : CacheState),
        0 < opt.MemoryLimit → memInv st →
        Set h szF lF opt now st k v d = some (st', none) →
        Alloc st' ≤ opt.MemoryLimit)
  ∧ (∀ (h : List GoVal) (szF lF : Nat) (opt : CacheOption) (now : Int)
        (k : String) (v : GoVal) (d : Int),
        0 < opt.MemoryLimit →
        opt.MemoryLimit < calculateItemSize h szF k v →
        Set h szF (lF + 1) opt now newCache k v d = some (newCache, some .emptyQueue)) := by
  constructor
  · intro h szF lF opt now st k v d st' hL hinv hs
    exact set_success_memle hL hinv hs
  · intro h szF lF opt now k v d hL hsz
    unfold Set set
    have hcap : capPhase opt newCache = (newCache, none) := by
      unfold capPhase
      rw [if_neg]
      intro hc
      have : (newCache.items.length : Int) = 0 := rfl
      omega
    rw [hcap]
    simp only
    rw [if_pos ⟨hL, by
      have h0 : newCache.memUsage = 0 := rfl
      omega⟩]
    rw [memEvictionLoop]
    rw [if_neg (by
      have h0 : newCache.memUsage = 0 := rfl
      omega)]
    rfl

/-- The state after inserting "a" (value .str 4, never expiring) into a
fresh store: one entry of size 45. -/
def stA45 : CacheState := ⟨[("a", ⟨.str 4, 0, 45⟩)], 45, ["a"]⟩

/-- Witness for C4: part (a) at a fresh-store insert of "a" (size 45, limit
1000), part (b) at an insert of size 141 against limit 100. -/
theorem C4_memory_limit_amended_witness :
    Alloc stA45 ≤ (1000 : Int)
  ∧ Set [] 20 1 ⟨0, 100, 0⟩ 0 newCache "k" (.str 100) 1
      = some (newCache, some .emptyQueue) := by
  constructor
  · have hset : Set [] 20 50 ⟨0, 1000, 0⟩ 0 newCache "a" (.str 4) (-1)
        = some (stA45, none) := rfl
    exact C4_memory_limit_amended.1 [] 20 50 ⟨0, 1000, 0⟩ 0 newCache "a" (.str 4) (-1)
      stA45 (by decide) ⟨fun p hp => by simp [newCache] at hp, by decide⟩ hset
  · exact C4_memory_limit_amended.2 [] 20 0 ⟨0, 100, 0⟩ 0 "k" (.str 100) 1
      (by decide) (by decide)

/-- C5 counterexample: with the configured default TTL equal to 0 (a
reachable configuration — several repository tests construct the cache
without a DefaultExpiration), Insert("a", v, 0) at instant 100 stores the
entry with expiration instant 0, which is the never-expires sentinel, not
now + defaultTTL = 100: the entry is still retrievable at an arbitrarily late
instant. -/
theorem C5_claim_false :
    Set [] 20 50 optDef0 100 newCache "a" (.i64 5) 0 = some (stAfterA, none)
    ∧ (lookupItem stAfterA.items "a").map Item.Expiration = some 0
    ∧ (0 : Int) ≠ 100 + optDef0.DefaultExpiration
    ∧ (Get stAfterA "a" 1000000000000000000).2 = true :=
  ⟨rfl, rfl, by decide, rfl⟩

/-- C5 (amended): for every successful Insert(key, value, ttl): a zero ttl
uses the configured default TTL — when that default is positive the stored
expiration equals now plus the default, and a non-positive default makes the
entry never expire (retrievable at every instant); the sentinel -1 makes the
entry never expire, retrievable no matter how much time elapses; and any
positive ttl yields expiration now + ttl. -/
theorem C5_ttl_semantics_amended :
    (∀ (h : List GoVal) (szF lF : Nat) (opt : CacheOption) (now : Int) (st : CacheState)
        (k : String) (v : GoVal) (st' : CacheState),
        0 < opt.DefaultExpiration →
        Set h szF lF opt now st k v 0 = some (st', none) →
        lookupItem st'.items k
          = some ⟨v, now + opt.DefaultExpiration, calculateItemSize h szF k v⟩)
  ∧ (∀ (h : List GoVal) (szF lF : Nat) (opt : CacheOption) (now : Int) (st : CacheState)
        (k : String) (v : GoVal) (st' : CacheState),
        opt.DefaultExpiration ≤ 0 →
        Set h szF lF opt now st k v 0 = some (st', none) →
        lookupItem st'.items k = some ⟨v, 0, calculateItemSize h szF k v⟩
          ∧ ∀ now' : Int, Get st' k now' = (some v, true))
  ∧ (∀ (h : List GoVal) (szF lF : Nat) (opt : CacheOption) (now : Int) (st : CacheState)
        (k : String) (v : GoVal) (st' : CacheState),
        Set h szF lF opt now st k v (-1) = some (st', none) →
        lookupItem st'.items k = some ⟨v, 0, calculateItemSize h szF k v⟩
          ∧ ∀ now' : Int, Get st' k now' = (some v, true))
  ∧ (∀ (h : List GoVal) (szF lF : Nat) (opt : CacheOption) (now : Int) (st : CacheState)
        (k : String) (v : GoVal) (d : Int) (st' : CacheState),
        0 < d →
        Set h szF lF opt now st k v d = some (st', none) →
        lookupItem st'.items k = some ⟨v, now + d, calculateItemSize h szF k v⟩) := by
  refine ⟨?_, ?_, ?_, ?_⟩
  · intro h szF lF opt now st k v st' hpos hs
    have hl := set_success_lookup hs
    rwa [expOf_zero_pos opt now hpos] at hl
  · intro h szF lF opt now st k v st' hnp hs
    have hl := set_success_lookup hs
    rw [expOf_zero_nonpos opt now hnp] at hl
    exact ⟨hl, fun now' => Get_of_lookup_noexp hl now'⟩
  · intro h szF lF opt now st k v st' hs
    have hl := set_success_lookup hs
    rw [expOf_neg opt now (show (-1 : Int) < 0 by omega)] at hl
    exact ⟨hl, fun now' => Get_of_lookup_noexp hl now'⟩
  · intro h szF lF opt now st k v d st' hd hs
    have hl := set_success_lookup hs
    rwa [expOf_pos opt now hd] at hl

/-- The state after inserting "a" with ttl 0 under default TTL 5 at instant
7: expiration 12. -/
def stW1 : CacheState := ⟨[("a", ⟨.i64 1, 12, 33⟩)], 33, ["a"]⟩

/-- The state after inserting "b" with the never-expires sentinel. -/
def stW3 : CacheState := ⟨[("b", ⟨.i64 2, 0, 33⟩)], 33, ["b"]⟩

/-- The state after inserting "c" with ttl 9 at instant 7: expiration 16. -/
def stW4 : CacheState := ⟨[("c", ⟨.i64 3, 16, 33⟩)], 33, ["c"]⟩

/-- Witness for C5: each TTL mode at a concrete insert — ttl 0 with positive
default 5 at instant 7 gives expiration 12; ttl 0 with default 0 gives a
never-expiring entry still retrievable at instant 999; ttl -1 gives a
never-expiring entry still retrievable at instant 99999; ttl 9 at instant 7
gives expiration 16. -/
theorem C5_ttl_semantics_amended_witness :
    lookupItem stW1.items "a" = some ⟨.i64 1, 12, 33⟩
  ∧ Get stAfterA "a" 999 = (some (.i64 5), true)
  ∧ Get stW3 "b" 99999 = (some (.i64 2), true)
  ∧ lookupItem stW4.items "c" = some ⟨.i64 3, 16, 33⟩ := by
  refine ⟨?_, ?_, ?_, ?_⟩
  · have hset : Set [] 20 50 ⟨0, 1000, 5⟩ 7 newCache "a" (.i64 1) 0
        = some (stW1, none) := rfl
    exact C5_ttl_semantics_amended.1 [] 20 50 ⟨0, 1000, 5⟩ 7 newCache "a" (.i64 1) stW1
      (by decide) hset
  · have hset : Set [] 20 50 optDef0 100 newCache "a" (.i64 5) 0
        = some (stAfterA, none) := rfl
    exact (C5_ttl_semantics_amended.2.1 [] 20 50 optDef0 100 newCache "a" (.i64 5) stAfterA
      (by decide) hset).2 999
  · have hset : Set [] 20 50 ⟨0, 1000, 5⟩ 7 newCache "b" (.i64 2) (-1)
        = some (stW3, none) := rfl
    exact (C5_ttl_semantics_amended.2.2.1 [] 20 50 ⟨0, 1000, 5⟩ 7 newCache "b" (.i64 2) stW3
      hset).2 99999
  · have hset : Set [] 20 50 ⟨0, 1000, 5⟩ 7 newCache "c" (.i64 3) 9
        = some (stW4, none) := rfl
    exact C5_ttl_semantics_amended.2.2.2 [] 20 50 ⟨0, 1000, 5⟩ 7 newCache "c" (.i64 3) 9 stW4
      (by decide) hset

/-- C6 counterexample: with capacity 2, after inserting "a" and "b" (Size =
2), a plain overwriting Insert of "b" evicts the FIFO front "a" and rewrites
"b" in place, leaving Size = 1 — Size() decreased through an Insert, which is
none of Remove, a Replace-path eviction, or an ExpireAll pass. -/
theorem C6_claim_false :
    Size stTwoEntries = 2
  ∧ Set [] 20 50 optCap2 0 stTwoEntries "b" (.str 4) (-1) = some (stAfterB, none)
  ∧ Size stAfterB = 1 :=
  ⟨rfl, rfl, rfl⟩

/-- C6 (amended): Lookup (Get) on an entry whose expiration instant is
positive and has passed returns absent while the entry is still stored (Get
takes only a read lock and returns values, never a state); and an Insert that
triggers neither the capacity branch nor the memory-limit branch never
decreases the entry count — Size() decreases only through operations that
delete entries: Remove, Replace's eviction path, ExpireAll, Clear, or an
Insert-path capacity/memory eviction. -/
theorem C6_lazy_expiration_amended :
    (∀ (st : CacheState) (k : String) (now : Int) (it : Item),
        lookupItem st.items k = some it →
        0 < it.Expiration → it.Expiration < now →
        Get st k now = (none, false))
  ∧ (∀ (h : List GoVal) (szF lF : Nat) (opt : CacheOption) (now : Int) (st : CacheState)
        (k : String) (v : GoVal) (d : Int) (st' : CacheState) (r : Option Err),
        ¬(0 < opt.Capacity ∧ opt.Capacity ≤ (st.items.length : Int)) →
        ¬(0 < opt.MemoryLimit ∧ opt.MemoryLimit ≤ st.memUsage + calculateItemSize h szF k v) →
        Set h szF lF opt now st k v d = some (st', r) →
        Size st ≤ Size st') := by
  constructor
  · intro st k now it hl h1 h2
    unfold Get
    rw [hl]
    show (if 0 < it.Expiration then
        if it.Expiration < now then ((none : Option GoVal), false)
        else (some it.Object, true)
      else (some it.Object, true)) = (none, false)
    rw [if_pos h1, if_pos h2]
  · intro h szF lF opt now st k v d st' r hcap hmem hs
    unfold Set set at hs
    rw [show capPhase opt st = (st, none) from by
      unfold capPhase
      rw [if_neg hcap]] at hs
    simp only at hs
    rw [if_neg hmem] at hs
    simp only [Option.some.injEq, Prod.mk.injEq] at hs
    obtain ⟨rfl, -⟩ := hs
    exact insertItem_length_ge st.items k _

/-- Witness for C6: Get on the expired entry of stWedge at instant 20
returns absent, and the no-eviction fresh-store insert of "a" does not shrink
the entry count. -/
theorem C6_lazy_expiration_amended_witness :
    Get stWedge "a" 20 = (none, false) ∧ Size newCache ≤ Size stA45 := by
  constructor
  · exact C6_lazy_expiration_amended.1 stWedge "a" 20 ⟨.str 4, 10, 45⟩ rfl
      (by decide) (by decide)
  · have hset : Set [] 20 50 ⟨0, 1000, 0⟩ 0 newCache "a" (.str 4) (-1)
        = some (stA45, none) := rfl
    exact C6_lazy_expiration_amended.2 [] 20 50 ⟨0, 1000, 0⟩ 0 newCache "a" (.str 4) (-1)
      stA45 none (by decide) (by decide) hset

/-- C7: cycle-safety of the estimator.  First, in general: for every heap and
every root address, DeepSize of a pointer to the root is unchanged when every
back-reference to the root in the heap is severed (replaced by nil) — the
cycle contributes nothing beyond the first visit, because the root is marked
seen before any of its references is reached.  Second, the repository's own
cycle test shape: for every payload z, the self-referential record
struct (z, self-pointer) has the same DeepSize as the same record with the
self-reference removed. -/
theorem C7_cycle_severing :
    (∀ (h : List GoVal) (root : Nat) (fuel : Nat),
        DeepSize (h.map (severVal root)) fuel (.ptr (some root))
          = DeepSize h fuel (.ptr (some root)))
  ∧ (∀ z : Int,
        DeepSize [.strct [.i64 z, .ptr (some 0)]] 20 (.ptr (some 0))
          = DeepSize [.strct [.i64 z, .ptr none]] 20 (.ptr (some 0))) := by
  constructor
  · intro h root fuel
    cases fuel with
    | zero => rfl
    | succ fuel =>
      unfold DeepSize
      have hnotin : root ∉ ([] : List Nat) := by simp
      simp only [vsz, if_neg hnotin]
      rw [getD_map_severVal]
      rw [show vsz (h.map (severVal root)) fuel
            (.val (severVal root (h.getD root (.strct [])))) [root]
          = vsz h fuel (.val (h.getD root (.strct []))) [root] from
        vsz_sever h root fuel (.val _) [root] (by simp)]
  · intro z
    rfl

/-- C8: with capacity 2 and an ample memory limit, inserting "1", "2", "3" in
order with a long TTL into a fresh store evicts exactly the FIFO front "1"
at the third insert, leaving exactly the entries "2" and "3" (both
retrievable, "1" absent) and the queue ["2", "3"]. -/
theorem C8_capacity_two_keeps_last_two :
    stCapTrace.items.map Prod.fst = ["2", "3"] ∧ stCapTrace.queue = ["2", "3"]
  ∧ (Get stCapTrace "2" 5).2 = true ∧ (Get stCapTrace "3" 5).2 = true
  ∧ (Get stCapTrace "1" 5).2 = false :=
  ⟨rfl, rfl, rfl, rfl, rfl⟩

/-- C9: the claim that every Insert terminates is VIOLATED by the code: on
stWedge — one entry "a" already expired at the current instant 20 sitting at
the FIFO front — inserting "b" (size 100, limit 100) enters the memory
eviction loop, whose getItem miss path repeats with unchanged state, so the
call returns within no finite fuel bound at all. -/
theorem C9_insert_can_diverge (loopFuel : Nat) :
    Set [] 20 loopFuel optWedge 20 stWedge "b" (.str 59) (-1) = none := by
  unfold Set set
  rw [show capPhase optWedge stWedge = (stWedge, none) from rfl]
  simp only
  rw [if_pos (by decide)]
  rw [show stWedge.memUsage + calculateItemSize [] 20 "b" (.str 59) - optWedge.MemoryLimit
      = 45 from rfl]
  rw [memEvictionLoop_stWedge loopFuel]

/-- C10: the reported memory usage is never negative: every deduction clamps
at zero (deductMemUsage computes exactly max(counter - mem, 0)), and after
any sequence of public operations on a freshly constructed store the counter
is at least zero. -/
theorem C10_memory_counter_never_negative :
    (∀ (h : List GoVal) (szF lF : Nat) (opt : CacheOption) (ops : List Op),
        0 ≤ Alloc (runOps h szF lF opt ops newCache))
  ∧ (∀ x m : Int, deductMemUsage x m = max (x - m) 0) := by
  constructor
  · intro h szF lF opt ops
    exact runOps_nonneg h szF lF opt ops newCache (le_refl 0)
  · intro x m
    exact deductMemUsage_eq_max x m

end PCache
